import Mathlib

/-!
Verification of `tools/fix_md_tables.py`, a single-pass markdown-table
normalizer.  The Python functions are shallowly embedded over `List Char`:
a Python `str` value is modelled as its list of characters (`String.toList`
is used only to write concrete inputs).  Python's whitespace set is modelled
by its ASCII part (the claims never exercise non-ASCII whitespace), and the
file system seen by `gather_files` is modelled as the list of paths of the
existing files (relative to the working directory, as `pathlib` prints
them).  File I/O in `main` is modelled by recording, per selected file, the
outcome of `process_file` (a change flag, or an unrecoverable read/write
error).
-/

/-- Whitespace characters stripped by Python's `str.strip` / matched by
regex `\s`, restricted to ASCII (the spec and the claims never depend on
non-ASCII whitespace). -/
def pyIsSpace (c : Char) : Bool :=
  c = ' ' || c = '\t' || c = '\n' || c = '\r' || c = '\x0b' || c = '\x0c'

/-- Python `str.lstrip()`. -/
def pyLStrip (s : List Char) : List Char := s.dropWhile pyIsSpace

/-- Python `str.rstrip()`. -/
def pyRStrip (s : List Char) : List Char := (s.reverse.dropWhile pyIsSpace).reverse

/-- Python `str.strip()`. -/
def pyStrip (s : List Char) : List Char := pyRStrip (pyLStrip s)

/-- Python `str.rstrip("\n")`: removes every trailing newline character. -/
def pyRStripNl (s : List Char) : List Char :=
  (s.reverse.dropWhile (fun c => c = '\n')).reverse

/-- Python `str.endswith("\n")`. -/
def pyEndsNl (s : List Char) : Bool := s.getLast? == some '\n'

/-- Python `str.split("|")` (split on every pipe, no collapsing). -/
def split_pipe : List Char → List (List Char)
  | [] => [[]]
  | c :: rest =>
      if c = '|' then [] :: split_pipe rest
      else
        match split_pipe rest with
        | s :: ss => (c :: s) :: ss
        | [] => [[c]]

/-- Python `"|".join(cells)`. -/
def join_pipe : List (List Char) → List Char
  | [] => []
  | [c] => c
  | c :: cs => c ++ '|' :: join_pipe cs

/-- The backtick character (source line 17 tests for a triple of them). -/
def backtick : Char := Char.ofNat 96

/-- Source `is_fence` (line 15): the line, after `lstrip`, starts with a
triple backtick. -/
def is_fence (line : List Char) : Bool :=
  match line.dropWhile pyIsSpace with
  | a :: b :: c :: _ => a = backtick && b = backtick && c = backtick
  | _ => false

/-- Source regex `^\s*[-*+]\s` applied with `re.match` (line 34): optional
leading whitespace, a bullet character, then one whitespace character. -/
def bullet_match (line : List Char) : Bool :=
  match line.dropWhile pyIsSpace with
  | c :: d :: _ => (c = '-' || c = '*' || c = '+') && pyIsSpace d
  | _ => false

/-- Source `is_table_row` (line 20): stripped line starts and ends with a
pipe, contains at least two pipes, and is not a bullet list item. -/
def is_table_row (line : List Char) : Bool :=
  let stripped := pyStrip line
  stripped.head? == some '|' && stripped.getLast? == some '|' &&
    decide (2 ≤ stripped.count '|') && !bullet_match line

/-- Helper for the separator regex: drops one leading colon if present. -/
def dropLeadColon : List Char → List Char
  | [] => []
  | c :: r => if c = ':' then r else c :: r

/-- Source regex `^:?-+:?$` (line 58), fully applied: optional leading
colon, one or more dashes, optional trailing colon. -/
def sep_pattern_match (s : List Char) : Bool :=
  let core := (dropLeadColon (dropLeadColon s).reverse).reverse
  !core.isEmpty && core.all (fun c => c = '-')

/-- Source line 60: `all(sep_pattern.match(p.strip()) for p in inner_parts
if p.strip())` — every interior part with non-blank strip matches the
separator pattern (vacuously true when every part is blank). -/
def is_separator_row (inner_parts : List (List Char)) : Bool :=
  (inner_parts.filter (fun p => !(pyStrip p).isEmpty)).all
    (fun p => sep_pattern_match (pyStrip p))

/-- Source lines 63-75, the body of the cell loop of
`normalize_table_line`: separator cells become ` {:}---{:} `, non-blank
cells become ` content `, blank cells become a single space. -/
def norm_cell (is_sep : Bool) (p : List Char) : List Char :=
  let content := pyStrip p
  if is_sep && !content.isEmpty then
    [' '] ++ (if content.head? == some ':' then [':'] else []) ++
      ['-', '-', '-'] ++
      (if content.getLast? == some ':' then [':'] else []) ++ [' ']
  else if !content.isEmpty then
    ' ' :: content ++ [' ']
  else
    [' ']

/-- Source line 47: `stripped.split("|")` where `stripped` is the line with
trailing newlines removed. -/
def line_parts (line : List Char) : List (List Char) :=
  split_pipe (pyRStripNl line)

/-- Source line 59: `parts[1:-1]`, the interior cell contents. -/
def inner_cells (line : List Char) : List (List Char) :=
  ((line_parts line).drop 1).dropLast

/-- Source `normalize_table_line` (line 39). -/
def normalize_table_line (line : List Char) : List Char :=
  if (line_parts line).length < 3 then line
  else
    let normalized_cells :=
      (inner_cells line).map (norm_cell (is_separator_row (inner_cells line)))
    let result := '|' :: join_pipe normalized_cells ++ ['|']
    if pyEndsNl line then result ++ ['\n'] else result

/-- One iteration of the loop of `process_file` (lines 95-117): returns the
updated fence state and the emitted line.  `normalize_table_line` is a total
function (each Python operation it uses is total on `str`), so the
`except` fallback of lines 114-115 has no counterpart. -/
def process_line (in_fence : Bool) (line : List Char) : Bool × List Char :=
  if is_fence line then (!in_fence, line)
  else if in_fence then (in_fence, line)
  else if is_table_row line then (in_fence, normalize_table_line line)
  else (in_fence, line)

/-- The loop of `process_file` over the lines of the file, starting from a
given fence state (`False` at line 91). -/
def process_lines : Bool → List (List Char) → List (List Char)
  | _, [] => []
  | in_fence, l :: ls =>
      (process_line in_fence l).2 :: process_lines (process_line in_fence l).1 ls

/-- Characters on which Python `str.splitlines` breaks lines. -/
def isLineBreak (c : Char) : Bool :=
  c = '\n' || c = '\r' || c = '\x0b' || c = '\x0c' || c = '\x1c' ||
  c = '\x1d' || c = '\x1e' || c = '\x85' ||
  c = Char.ofNat 0x2028 || c = Char.ofNat 0x2029

/-- Accumulator loop for `str.splitlines(keepends=True)`; `\r\n` counts as
a single line break. -/
def splitlines_aux : List Char → List Char → List (List Char)
  | acc, [] => if acc.isEmpty then [] else [acc.reverse]
  | acc, '\r' :: '\n' :: rest => (acc.reverse ++ ['\r', '\n']) :: splitlines_aux [] rest
  | acc, c :: rest =>
      if isLineBreak c then (acc.reverse ++ [c]) :: splitlines_aux [] rest
      else splitlines_aux (c :: acc) rest

/-- Python `text.splitlines(keepends=True)` (source line 90). -/
def py_splitlines (text : List Char) : List (List Char) := splitlines_aux [] text

/-- The text produced by one run of `process_file` on a file holding
`text` (lines 89-120): split into lines keeping the ends, run the loop,
join the output lines.  This is the content the next run would read. -/
def process_text (text : List Char) : List Char :=
  (process_lines false (py_splitlines text)).flatten

/-- Fence-state update of one line of the loop (lines 97-98). -/
def fence_toggle (s : Bool) (l : List Char) : Bool := if is_fence l then !s else s

/-- The `in_fence` state of `process_file` when line `i` is about to be
processed, starting from state `f`. -/
def fence_state_before (f : Bool) (ls : List (List Char)) (i : Nat) : Bool :=
  (ls.take i).foldl fence_toggle f

/-! ### Derived and spec-side definitions used by the verification -/

/-- Right-hand analogue of `dropWhile`: remove the longest suffix whose
characters satisfy `q`. -/
def rdrop (q : Char → Bool) (l : List Char) : List Char :=
  (l.reverse.dropWhile q).reverse

/-- The normalized separator cell, by presence of leading/trailing colon. -/
def sep_cell (b1 b2 : Bool) : List Char :=
  [' '] ++ (if b1 then [':'] else []) ++ ['-', '-', '-'] ++
    (if b2 then [':'] else []) ++ [' ']

/-- The normalized cells of a line (main branch of the source loop). -/
def norm_cells (line : List Char) : List (List Char) :=
  (inner_cells line).map (norm_cell (is_separator_row (inner_cells line)))

/-- The rebuilt row of source line 78: `"|" + "|".join(cells) + "|"`. -/
def norm_body (line : List Char) : List Char :=
  ('|' :: join_pipe (norm_cells line)) ++ ['|']

/-- Spec 4.3 step 4, first bullet, stated in the spec's words: a non-blank
separator cell becomes three dashes, keeping a leading colon iff the trimmed
original started with one and a trailing colon iff it ended with one,
surrounded by exactly one space on each side. -/
def spec_sep_cell (content : List Char) : List Char :=
  [' '] ++ (if content.head? = some ':' then [':'] else []) ++ ['-', '-', '-'] ++
    (if content.getLast? = some ':' then [':'] else []) ++ [' ']

/-- Spec-side description of a rewritten separator row: pipes around the
per-cell images (blank cells stay a single space), with the trailing
newline reattached iff the input line ended with one. -/
def spec_sep_row (line : List Char) : List Char :=
  ('|' :: join_pipe ((inner_cells line).map
      (fun p => if pyStrip p = [] then [' '] else spec_sep_cell (pyStrip p)))) ++ ['|'] ++
    (if pyEndsNl line then ['\n'] else [])

/-- The trailing run of line-terminator characters (`\r`/`\n`) of a line,
used to state claim C7's strong form. -/
def trailing_terminators (s : List Char) : List Char :=
  (s.reverse.takeWhile (fun c => c = '\n' || c = '\r')).reverse

/-! ### File selector model -/

/-- The file system as seen by `gather_files`: the list of paths of the
existing (non-hidden) files, written relative to the working directory. -/
structure FS where
  files : List String

/-- Python `needle in hay` for character lists. -/
def sub_list (needle : List Char) : List Char → Bool
  | [] => needle.isEmpty
  | c :: rest => needle.isPrefixOf (c :: rest) || sub_list needle rest

/-- Python `needle in hay` on strings (substring containment). -/
def py_in (needle hay : String) : Bool := sub_list needle.toList hay.toList

/-- `Path(p).is_file()` in the modelled file system. -/
def FS.is_file (fs : FS) (p : String) : Bool := fs.files.contains p

/-- Whether a path lies strictly below `dir` (`Path(dir).rglob` yields
paths prefixed by `dir/`; `Path "."` prints its results bare). -/
def path_under (dir p : String) : Bool :=
  dir == "." || (dir.toList ++ ['/']).isPrefixOf p.toList

/-- Whether the final name component matches the glob `*.md`; since `.md`
contains no slash this is suffix-matching on the whole path. -/
def matches_md (p : String) : Bool :=
  ['.', 'm', 'd'].isSuffixOf p.toList

/-- `Path(dir).rglob("*.md")` in the modelled file system. -/
def rglob_md (fs : FS) (dir : String) : List String :=
  fs.files.filter (fun f => path_under dir f && matches_md f)

/-- Byte-wise comparison of strings, the order `sorted` uses on the paths
appearing in the claims. -/
def char_list_le : List Char → List Char → Bool
  | [], _ => true
  | _ :: _, [] => false
  | a :: as, b :: bs =>
      decide (a.toNat < b.toNat) ||
        (decide (a.toNat = b.toNat) && char_list_le as bs)

/-- String order used to model Python `sorted`. -/
def str_le (a b : String) : Bool := char_list_le a.toList b.toList

/-- Insertion into a sorted list of strings. -/
def insert_sorted (x : String) : List String → List String
  | [] => [x]
  | y :: ys => if str_le x y then x :: y :: ys else y :: insert_sorted x ys

/-- Python `sorted` on a list of paths (insertion sort; the claims only
depend on membership). -/
def sort_strings (l : List String) : List String := l.foldr insert_sorted []

/-- Source `gather_files` (line 124).  With arguments, file arguments are
taken as given and the rest are expanded by `rglob("*.md")`, then the list
is deduplicated (`set`) and sorted; with no arguments, `Path(".")` is
globbed and paths containing `node_modules` are dropped. -/
def gather_files (fs : FS) (args : List String) : List String :=
  if !args.isEmpty then
    sort_strings
      ((args.flatMap (fun p => if fs.is_file p then [p] else rglob_md fs p)).dedup)
  else
    sort_strings ((rglob_md fs ".").filter (fun p => !py_in "node_modules" p))

/-! ### Driver model -/

/-- Outcome of `process_file` on one file: a change flag, or an
unrecoverable read/write error (the `except` of source line 153). -/
inductive FileOutcome
  | ok (changed : Bool)
  | err
deriving DecidableEq

/-- The loop of `main` (lines 147-155): returns the exit status together
with the list of files on which `process_file` was invoked. -/
def run_files : List (String × FileOutcome) → Nat × List String
  | [] => (0, [])
  | (f, FileOutcome.err) :: _ => (2, [f])
  | (f, FileOutcome.ok _) :: rest => ((run_files rest).1, f :: (run_files rest).2)

/-- Source `main` (line 141), given the selected targets paired with the
outcome processing each would produce: exit status and processed files. -/
def main_model (targets : List (String × FileOutcome)) : Nat × List String :=
  if targets.isEmpty then (1, []) else run_files targets

/-! ### Generic list helpers -/

theorem pyRStrip_eq_rdrop (l : List Char) : pyRStrip l = rdrop pyIsSpace l := rfl

theorem pyRStripNl_eq_rdrop (l : List Char) :
    pyRStripNl l = rdrop (fun c => c = '\n') l := rfl

theorem dropWhile_dropWhile (p : Char → Bool) (l : List Char) :
    (l.dropWhile p).dropWhile p = l.dropWhile p := by
  induction l with
  | nil => rfl
  | cons c t ih =>
      cases h : p c with
      | true => simpa [List.dropWhile_cons, h] using ih
      | false => simp [List.dropWhile_cons, h]

theorem dropWhile_head_false (p : Char → Bool) :
    ∀ (l : List Char) (c : Char) (t : List Char), l.dropWhile p = c :: t → p c = false := by
  intro l
  induction l with
  | nil => intro c t h; simp [List.dropWhile] at h
  | cons a u ih =>
      intro c t h
      cases ha : p a with
      | true => rw [List.dropWhile_cons, ha] at h; exact ih c t (by simpa using h)
      | false =>
          rw [List.dropWhile_cons, ha] at h
          simp only [Bool.false_eq_true, if_false] at h
          cases h; exact ha

theorem mem_of_mem_dropWhile (p : Char → Bool) (l : List Char) (x : Char)
    (h : x ∈ l.dropWhile p) : x ∈ l := by
  have := List.takeWhile_append_dropWhile (p := p) (l := l)
  rw [← this]
  exact List.mem_append_right _ h

theorem rdrop_concat_false (q : Char → Bool) (c : Char) (h : q c = false)
    (t : List Char) : rdrop q (t ++ [c]) = t ++ [c] := by
  simp [rdrop, List.dropWhile_cons, h]

theorem rdrop_concat_true (q : Char → Bool) (c : Char) (h : q c = true)
    (t : List Char) : rdrop q (t ++ [c]) = rdrop q t := by
  simp [rdrop, List.dropWhile_cons, h]

theorem rdrop_decomp (q : Char → Bool) (l : List Char) :
    ∃ b, l = rdrop q l ++ b ∧ ∀ c ∈ b, q c = true := by
  refine ⟨(l.reverse.takeWhile q).reverse, ?_, ?_⟩
  · show l = rdrop q l ++ _
    rw [rdrop, ← List.reverse_append, List.takeWhile_append_dropWhile,
      List.reverse_reverse]
  · intro c hc
    rw [List.mem_reverse] at hc
    simpa using List.mem_takeWhile_imp hc

theorem rdrop_idem (q : Char → Bool) (l : List Char) :
    rdrop q (rdrop q l) = rdrop q l := by
  simp [rdrop, dropWhile_dropWhile]

theorem rdrop_eq_self_of_getLast (q : Char → Bool) (l : List Char) (c : Char)
    (hlast : l.getLast? = some c) (h : q c = false) : rdrop q l = l := by
  obtain ⟨t, rfl⟩ := List.getLast?_eq_some_iff.mp hlast
  exact rdrop_concat_false q c h t

/-! ### Strip lemmas -/

theorem pyLStrip_cons_false (c : Char) (h : pyIsSpace c = false) (t : List Char) :
    pyLStrip (c :: t) = c :: t := by
  simp [pyLStrip, List.dropWhile_cons, h]

theorem pyLStrip_cons_true (c : Char) (h : pyIsSpace c = true) (t : List Char) :
    pyLStrip (c :: t) = pyLStrip t := by
  simp [pyLStrip, List.dropWhile_cons, h]

theorem pyLStrip_idem (l : List Char) : pyLStrip (pyLStrip l) = pyLStrip l :=
  dropWhile_dropWhile pyIsSpace l

theorem pyLStrip_head_false (l : List Char) (c : Char) (t : List Char)
    (h : pyLStrip l = c :: t) : pyIsSpace c = false :=
  dropWhile_head_false pyIsSpace l c t h

theorem pyLStrip_decomp (l : List Char) :
    ∃ a, l = a ++ pyLStrip l ∧ ∀ c ∈ a, pyIsSpace c = true := by
  refine ⟨l.takeWhile pyIsSpace, ?_, ?_⟩
  · simp [pyLStrip, List.takeWhile_append_dropWhile]
  · intro c hc; simpa using List.mem_takeWhile_imp hc

theorem pyStrip_idem (l : List Char) : pyStrip (pyStrip l) = pyStrip l := by
  have hl : pyLStrip (pyRStrip (pyLStrip l)) = pyRStrip (pyLStrip l) := by
    cases h : pyRStrip (pyLStrip l) with
    | nil => rfl
    | cons c t =>
        obtain ⟨b, hb, -⟩ := rdrop_decomp pyIsSpace (pyLStrip l)
        rw [← pyRStrip_eq_rdrop, h] at hb
        have hb' : pyLStrip l = c :: (t ++ b) := by rw [hb, List.cons_append]
        have hc : pyIsSpace c = false := pyLStrip_head_false l c (t ++ b) hb'
        exact pyLStrip_cons_false c hc t
  show pyRStrip (pyLStrip (pyRStrip (pyLStrip l))) = pyRStrip (pyLStrip l)
  rw [hl, pyRStrip_eq_rdrop, pyRStrip_eq_rdrop, rdrop_idem, ← pyRStrip_eq_rdrop]

theorem pyRStrip_concat_false (c : Char) (h : pyIsSpace c = false) (t : List Char) :
    pyRStrip (t ++ [c]) = t ++ [c] := by
  rw [pyRStrip_eq_rdrop]; exact rdrop_concat_false _ c h t

theorem pyRStrip_concat_true (c : Char) (h : pyIsSpace c = true) (t : List Char) :
    pyRStrip (t ++ [c]) = pyRStrip t := by
  rw [pyRStrip_eq_rdrop, pyRStrip_eq_rdrop]; exact rdrop_concat_true _ c h t

theorem pyStrip_eq_self (c d : Char) (t : List Char) (hc : pyIsSpace c = false)
    (hd : pyIsSpace d = false) : pyStrip ((c :: t) ++ [d]) = (c :: t) ++ [d] := by
  have h1 : pyLStrip ((c :: t) ++ [d]) = (c :: t) ++ [d] := by
    rw [List.cons_append]
    exact pyLStrip_cons_false c hc _
  show pyRStrip (pyLStrip ((c :: t) ++ [d])) = (c :: t) ++ [d]
  rw [h1]
  exact pyRStrip_concat_false d hd _

theorem strip_wrap (l : List Char) : pyStrip ((' ' :: l) ++ [' ']) = pyStrip l := by
  have hsp : pyIsSpace ' ' = true := by decide
  have h1 : pyLStrip ((' ' :: l) ++ [' ']) = pyLStrip (l ++ [' ']) := by
    rw [List.cons_append]
    exact pyLStrip_cons_true ' ' hsp _
  have h2 : pyLStrip (l ++ [' ']) =
      if (List.dropWhile pyIsSpace l).isEmpty then List.dropWhile pyIsSpace [' ']
      else List.dropWhile pyIsSpace l ++ [' '] := List.dropWhile_append
  by_cases he : (List.dropWhile pyIsSpace l).isEmpty
  · have hl0 : pyLStrip l = [] := by
      simpa [pyLStrip, List.isEmpty_iff] using he
    have h3 : pyLStrip (l ++ [' ']) = [] := by
      rw [h2, if_pos he]
      simp [List.dropWhile_cons, hsp]
    show pyRStrip (pyLStrip ((' ' :: l) ++ [' '])) = pyRStrip (pyLStrip l)
    rw [h1, h3, hl0]
  · have h3 : pyLStrip (l ++ [' ']) = pyLStrip l ++ [' '] := by
      rw [h2, if_neg he]; rfl
    show pyRStrip (pyLStrip ((' ' :: l) ++ [' '])) = pyRStrip (pyLStrip l)
    rw [h1, h3]
    exact pyRStrip_concat_true ' ' hsp _

theorem mem_pyStrip (l : List Char) (x : Char) (h : x ∈ pyStrip l) : x ∈ l := by
  obtain ⟨b, hb, -⟩ := rdrop_decomp pyIsSpace (pyLStrip l)
  rw [← pyRStrip_eq_rdrop] at hb
  have h' : x ∈ pyRStrip (pyLStrip l) := h
  have hx : x ∈ pyLStrip l := by rw [hb]; exact List.mem_append_left _ h'
  exact mem_of_mem_dropWhile pyIsSpace l x hx

theorem count_zero_of_all (q : Char → Bool) (b : List Char)
    (hb : ∀ c ∈ b, q c = true) (hq : q '|' = false) : b.count '|' = 0 := by
  rw [List.count_eq_zero]
  intro hmem
  have := hb _ hmem
  rw [hq] at this
  cases this

theorem count_pyRStripNl (l : List Char) : (pyRStripNl l).count '|' = l.count '|' := by
  obtain ⟨b, hb, hball⟩ := rdrop_decomp (fun c => c = '\n') l
  rw [← pyRStripNl_eq_rdrop] at hb
  conv_rhs => rw [hb]
  rw [List.count_append]
  rw [count_zero_of_all _ b hball (by decide)]
  omega

theorem count_pyStrip (l : List Char) : (pyStrip l).count '|' = l.count '|' := by
  obtain ⟨a, ha, haall⟩ := pyLStrip_decomp l
  obtain ⟨b, hb, hball⟩ := rdrop_decomp pyIsSpace (pyLStrip l)
  rw [← pyRStrip_eq_rdrop] at hb
  have hl : l = a ++ (pyStrip l ++ b) := by
    conv_lhs => rw [ha, hb]
    rfl
  conv_rhs => rw [hl]
  rw [List.count_append, List.count_append]
  rw [count_zero_of_all _ a haall (by decide), count_zero_of_all _ b hball (by decide)]
  omega

/-! ### Split and join lemmas -/

theorem split_pipe_ne_nil (l : List Char) : split_pipe l ≠ [] := by
  cases l with
  | nil => simp [split_pipe]
  | cons c rest =>
      by_cases h : c = '|'
      · simp [split_pipe, h]
      · simp only [split_pipe, h, if_false]
        cases hsp : split_pipe rest <;> simp

theorem split_pipe_length (l : List Char) : (split_pipe l).length = l.count '|' + 1 := by
  induction l with
  | nil => simp [split_pipe]
  | cons c rest ih =>
      by_cases h : c = '|'
      · subst h
        simp [split_pipe, List.count_cons, ih]
      · cases hsp : split_pipe rest with
        | nil => exact absurd hsp (split_pipe_ne_nil rest)
        | cons s ss =>
            rw [hsp] at ih
            simp only [split_pipe, h, if_false, hsp, List.length_cons, List.count_cons]
            simp only [List.length_cons] at ih
            simp [h, ih]

theorem mem_split_pipe_no_pipe (l : List Char) :
    ∀ s ∈ split_pipe l, '|' ∉ s := by
  induction l with
  | nil =>
      intro s hs
      simp [split_pipe] at hs
      simp [hs]
  | cons c rest ih =>
      intro s hs
      by_cases h : c = '|'
      · rw [split_pipe, if_pos h] at hs
        rcases List.mem_cons.mp hs with h1 | h1
        · simp [h1]
        · exact ih s h1
      · rw [split_pipe, if_neg h] at hs
        cases hsp : split_pipe rest with
        | nil => exact absurd hsp (split_pipe_ne_nil rest)
        | cons s0 ss =>
            rw [hsp] at hs
            rcases List.mem_cons.mp hs with h1 | h1
            · subst h1
              intro hmem
              rcases List.mem_cons.mp hmem with h2 | h2
              · exact h h2.symm
              · exact ih s0 (hsp ▸ List.mem_cons_self s0 ss) h2
            · exact ih s (hsp ▸ List.mem_cons_of_mem s0 h1)

theorem split_pipe_append (a : List Char) (ha : '|' ∉ a) :
    ∀ (l : List Char) (s : List Char) (ss : List (List Char)),
      split_pipe l = s :: ss → split_pipe (a ++ l) = (a ++ s) :: ss := by
  induction a with
  | nil => intro l s ss h; simpa using h
  | cons x a' ih =>
      intro l s ss h
      have hx : ¬(x = '|') := fun hxe => ha (hxe ▸ List.mem_cons_self x a')
      have ih' := ih (fun hm => ha (List.mem_cons_of_mem x hm)) l s ss h
      rw [List.cons_append, split_pipe, if_neg hx, ih']
      rfl

theorem split_pipe_no_pipe (a : List Char) (ha : '|' ∉ a) : split_pipe a = [a] := by
  have h := split_pipe_append a ha [] [] [] rfl
  simpa using h

theorem join_pipe_cons_cons (a b : List Char) (t : List (List Char)) :
    join_pipe (a :: b :: t) = a ++ '|' :: join_pipe (b :: t) := by
  simp [join_pipe]

theorem split_join :
    ∀ cells : List (List Char), cells ≠ [] → (∀ c ∈ cells, '|' ∉ c) →
      split_pipe (join_pipe cells) = cells
  | [], h, _ => absurd rfl h
  | [c], _, hc => by
      show split_pipe (join_pipe [c]) = [c]
      have : join_pipe [c] = c := rfl
      rw [this]
      exact split_pipe_no_pipe c (hc c (by simp))
  | c1 :: c2 :: t, _, hc => by
      rw [join_pipe_cons_cons]
      have hrec :=
        split_join (c2 :: t) (by simp) (fun c hm => hc c (List.mem_cons_of_mem _ hm))
      have h2 : split_pipe ('|' :: join_pipe (c2 :: t)) = [] :: c2 :: t := by
        rw [split_pipe, if_pos rfl, hrec]
      have h3 := split_pipe_append c1 (hc c1 (by simp)) _ _ _ h2
      rw [h3]
      simp

theorem join_concat_nil :
    ∀ cells : List (List Char), cells ≠ [] →
      join_pipe (cells ++ [[]]) = join_pipe cells ++ ['|']
  | [], h => absurd rfl h
  | [c], _ => by
      show join_pipe [c, []] = join_pipe [c] ++ ['|']
      rw [join_pipe_cons_cons]
      rfl
  | c1 :: c2 :: t, _ => by
      have ih := join_concat_nil (c2 :: t) (by simp)
      show join_pipe (c1 :: ((c2 :: t) ++ [[]])) = join_pipe (c1 :: c2 :: t) ++ ['|']
      have h1 : join_pipe (c1 :: ((c2 :: t) ++ [[]])) =
          c1 ++ '|' :: join_pipe ((c2 :: t) ++ [[]]) := by
        rw [List.cons_append]
        exact join_pipe_cons_cons c1 _ _
      rw [h1, ih, join_pipe_cons_cons]
      simp

theorem join_wrap (cells : List (List Char)) (h : cells ≠ []) :
    ('|' :: join_pipe cells) ++ ['|'] = join_pipe ([] :: (cells ++ [[]])) := by
  obtain ⟨a, t, rfl⟩ : ∃ a t, cells = a :: t := by
    cases cells with
    | nil => exact absurd rfl h
    | cons a t => exact ⟨a, t, rfl⟩
  have h1 : join_pipe ([] :: ((a :: t) ++ [[]])) =
      [] ++ '|' :: join_pipe ((a :: t) ++ [[]]) := by
    rw [List.cons_append]
    exact join_pipe_cons_cons [] _ _
  rw [h1, join_concat_nil (a :: t) (by simp)]
  simp

/-! ### Normalized-cell lemmas -/

theorem norm_cell_true_eq_sep_cell (p : List Char) (h : (pyStrip p).isEmpty = false) :
    norm_cell true p =
      sep_cell ((pyStrip p).head? == some ':') ((pyStrip p).getLast? == some ':') := by
  simp only [norm_cell, sep_cell, h, Bool.not_false, Bool.and_self]
  rfl

theorem sep_cell_strip (b1 b2 : Bool) :
    pyStrip (sep_cell b1 b2) =
      (if b1 then [':'] else []) ++ ['-', '-', '-'] ++ (if b2 then [':'] else []) := by
  cases b1 <;> cases b2 <;> decide

theorem sep_cell_strip_ne_nil (b1 b2 : Bool) :
    (pyStrip (sep_cell b1 b2)).isEmpty = false := by
  cases b1 <;> cases b2 <;> decide

theorem sep_cell_match (b1 b2 : Bool) :
    sep_pattern_match (pyStrip (sep_cell b1 b2)) = true := by
  cases b1 <;> cases b2 <;> decide

theorem sep_cell_no_pipe (b1 b2 : Bool) : '|' ∉ sep_cell b1 b2 := by
  cases b1 <;> cases b2 <;> decide

theorem norm_cell_true_sep_cell (b1 b2 : Bool) :
    norm_cell true (sep_cell b1 b2) = sep_cell b1 b2 := by
  cases b1 <;> cases b2 <;> decide

theorem norm_cell_blank (b : Bool) (p : List Char) (h : (pyStrip p).isEmpty = true) :
    norm_cell b p = [' '] := by
  simp [norm_cell, h]

theorem norm_cell_false_eq (p : List Char) (h : (pyStrip p).isEmpty = false) :
    norm_cell false p = (' ' :: pyStrip p) ++ [' '] := by
  simp [norm_cell, h]

theorem pyStrip_norm_cell_false (p : List Char) :
    pyStrip (norm_cell false p) = pyStrip p := by
  cases h : (pyStrip p).isEmpty with
  | false => rw [norm_cell_false_eq p h, strip_wrap, pyStrip_idem]
  | true =>
      rw [norm_cell_blank false p h]
      have h0 : pyStrip p = [] := by simpa [List.isEmpty_iff] using h
      rw [h0]
      decide

theorem norm_cell_no_pipe (b : Bool) (p : List Char) (hp : '|' ∉ p) :
    '|' ∉ norm_cell b p := by
  cases b with
  | false =>
      cases h : (pyStrip p).isEmpty with
      | false =>
          rw [norm_cell_false_eq p h]
          intro hmem
          rcases List.mem_append.mp hmem with h1 | h1
          · rcases List.mem_cons.mp h1 with h2 | h2
            · cases h2
            · exact hp (mem_pyStrip p '|' h2)
          · simp at h1
      | true => rw [norm_cell_blank false p h]; decide
  | true =>
      cases h : (pyStrip p).isEmpty with
      | false => rw [norm_cell_true_eq_sep_cell p h]; exact sep_cell_no_pipe _ _
      | true => rw [norm_cell_blank true p h]; decide

theorem norm_cell_idem (b : Bool) (p : List Char) :
    norm_cell b (norm_cell b p) = norm_cell b p := by
  cases b with
  | false =>
      cases h : (pyStrip p).isEmpty with
      | false =>
          rw [norm_cell_false_eq p h]
          have h2 : (pyStrip ((' ' :: pyStrip p) ++ [' '])).isEmpty = false := by
            rw [strip_wrap, pyStrip_idem]; exact h
          rw [norm_cell_false_eq _ h2, strip_wrap, pyStrip_idem]
      | true => rw [norm_cell_blank false p h]; decide
  | true =>
      cases h : (pyStrip p).isEmpty with
      | false => rw [norm_cell_true_eq_sep_cell p h]; exact norm_cell_true_sep_cell _ _
      | true => rw [norm_cell_blank true p h]; decide

/-! ### Separator-row lemmas -/

theorem is_separator_row_iff (l : List (List Char)) :
    is_separator_row l = true ↔
      ∀ p ∈ l, (pyStrip p).isEmpty = false → sep_pattern_match (pyStrip p) = true := by
  rw [is_separator_row, List.all_eq_true]
  constructor
  · intro h p hp hne
    exact h p (List.mem_filter.mpr ⟨hp, by rw [hne]; rfl⟩)
  · intro h p hp
    obtain ⟨hmem, hcond⟩ := List.mem_filter.mp hp
    exact h p hmem (by simpa using hcond)

theorem is_separator_row_map_congr (g : List Char → List Char)
    (l : List (List Char)) (hg : ∀ p ∈ l, pyStrip (g p) = pyStrip p) :
    is_separator_row (l.map g) = is_separator_row l := by
  have hiff : is_separator_row (l.map g) = true ↔ is_separator_row l = true := by
    rw [is_separator_row_iff, is_separator_row_iff]
    constructor
    · intro h p hp hne
      have := h (g p) (List.mem_map_of_mem g hp)
      rw [hg p hp] at this
      exact this hne
    · intro h q hq hne
      obtain ⟨p, hp, rfl⟩ := List.mem_map.mp hq
      rw [hg p hp] at hne ⊢
      exact h p hp hne
  cases h1 : is_separator_row (l.map g) with
  | true => exact (hiff.mp h1).symm
  | false =>
      cases h2 : is_separator_row l with
      | true =>
          have h3 := hiff.mpr h2
          rw [h1] at h3
          simp at h3
      | false => rfl

theorem is_separator_row_map_true (l : List (List Char)) :
    is_separator_row (l.map (norm_cell true)) = true := by
  rw [is_separator_row_iff]
  intro q hq hne
  obtain ⟨p, hp, rfl⟩ := List.mem_map.mp hq
  cases hb : (pyStrip p).isEmpty with
  | true =>
      rw [norm_cell_blank true p hb] at hne
      exact absurd hne (by decide)
  | false =>
      rw [norm_cell_true_eq_sep_cell p hb]
      exact sep_cell_match _ _

/-! ### Shape of the main branch of `normalize_table_line` -/

theorem normalize_eq_main (line : List Char) (h : ¬((line_parts line).length < 3)) :
    normalize_table_line line =
      if pyEndsNl line then norm_body line ++ ['\n'] else norm_body line := by
  simp only [normalize_table_line, if_neg h]
  rfl

theorem normalize_eq_self (line : List Char) (h : (line_parts line).length < 3) :
    normalize_table_line line = line := by
  simp only [normalize_table_line, if_pos h]

theorem inner_cells_length (line : List Char) :
    (inner_cells line).length = (line_parts line).length - 2 := by
  simp only [inner_cells, List.length_dropLast, List.length_drop]
  omega

theorem inner_cells_ne_nil (line : List Char)
    (h : ¬((line_parts line).length < 3)) : inner_cells line ≠ [] := by
  have hlen := inner_cells_length line
  intro hnil
  rw [hnil] at hlen
  simp at hlen
  omega

theorem mem_inner_cells_no_pipe (line : List Char) (p : List Char)
    (hp : p ∈ inner_cells line) : '|' ∉ p := by
  have h1 : p ∈ (line_parts line).drop 1 :=
    (List.dropLast_sublist _).mem hp
  have h2 : p ∈ line_parts line := (List.drop_sublist _ _).mem h1
  exact mem_split_pipe_no_pipe _ p h2

theorem norm_cells_ne_nil (line : List Char) (h : ¬((line_parts line).length < 3)) :
    norm_cells line ≠ [] := by
  rw [norm_cells]
  simpa using inner_cells_ne_nil line h

theorem norm_cells_no_pipe (line : List Char) :
    ∀ c ∈ norm_cells line, '|' ∉ c := by
  intro c hc
  obtain ⟨p, hp, rfl⟩ := List.mem_map.mp hc
  exact norm_cell_no_pipe _ p (mem_inner_cells_no_pipe line p hp)

theorem norm_body_getLast (line : List Char) :
    (norm_body line).getLast? = some '|' := by
  rw [norm_body]
  exact List.getLast?_concat _

theorem pyRStripNl_norm_body (line : List Char) :
    pyRStripNl (norm_body line) = norm_body line := by
  rw [pyRStripNl_eq_rdrop]
  exact rdrop_eq_self_of_getLast _ _ '|' (norm_body_getLast line) (by decide)

theorem pyRStripNl_normalize (line : List Char) (h : ¬((line_parts line).length < 3)) :
    pyRStripNl (normalize_table_line line) = norm_body line := by
  rw [normalize_eq_main line h]
  cases he : pyEndsNl line with
  | true =>
      rw [if_pos rfl]
      rw [pyRStripNl_eq_rdrop, rdrop_concat_true _ '\n' (by decide)]
      rw [← pyRStripNl_eq_rdrop]
      exact pyRStripNl_norm_body line
  | false =>
      rw [if_neg (by simp)]
      exact pyRStripNl_norm_body line

theorem line_parts_normalize (line : List Char) (h : ¬((line_parts line).length < 3)) :
    line_parts (normalize_table_line line) = [] :: (norm_cells line ++ [[]]) := by
  rw [line_parts, pyRStripNl_normalize line h, norm_body,
    join_wrap (norm_cells line) (norm_cells_ne_nil line h)]
  apply split_join
  · simp
  · intro c hc
    rcases List.mem_cons.mp hc with h1 | h1
    · simp [h1]
    · rcases List.mem_append.mp h1 with h2 | h2
      · exact norm_cells_no_pipe line c h2
      · simp at h2
        simp [h2]

theorem not_lt3_normalize (line : List Char) (h : ¬((line_parts line).length < 3)) :
    ¬((line_parts (normalize_table_line line)).length < 3) := by
  rw [line_parts_normalize line h]
  have h1 := inner_cells_ne_nil line h
  have h2 : 0 < (inner_cells line).length := List.length_pos.mpr h1
  have h3 : norm_cells line = (inner_cells line).map _ := rfl
  simp [h3]
  omega

theorem inner_cells_normalize (line : List Char) (h : ¬((line_parts line).length < 3)) :
    inner_cells (normalize_table_line line) = norm_cells line := by
  rw [inner_cells, line_parts_normalize line h]
  simp [List.dropLast_concat]

theorem is_sep_normalize (line : List Char) (h : ¬((line_parts line).length < 3)) :
    is_separator_row (inner_cells (normalize_table_line line)) =
      is_separator_row (inner_cells line) := by
  rw [inner_cells_normalize line h, norm_cells]
  cases hb : is_separator_row (inner_cells line) with
  | true => exact is_separator_row_map_true _
  | false =>
      rw [is_separator_row_map_congr _ _ (fun p _ => pyStrip_norm_cell_false p)]
      exact hb

theorem pyEndsNl_normalize (line : List Char) :
    pyEndsNl (normalize_table_line line) = pyEndsNl line := by
  by_cases h : (line_parts line).length < 3
  · rw [normalize_eq_self line h]
  · rw [normalize_eq_main line h]
    cases he : pyEndsNl line with
    | true =>
        rw [if_pos rfl, pyEndsNl, List.getLast?_concat]
        rfl
    | false =>
        rw [if_neg (by simp), pyEndsNl, norm_body_getLast line]
        rfl

theorem normalize_table_line_idem (line : List Char) :
    normalize_table_line (normalize_table_line line) = normalize_table_line line := by
  by_cases h : (line_parts line).length < 3
  · rw [normalize_eq_self line h, normalize_eq_self line h]
  · have h2 := not_lt3_normalize line h
    have hc : norm_cells (normalize_table_line line) = norm_cells line := by
      rw [norm_cells, is_sep_normalize line h, inner_cells_normalize line h]
      simp only [norm_cells, List.map_map]
      apply List.map_congr_left
      intro p _
      exact norm_cell_idem _ p
    have hbody : norm_body (normalize_table_line line) = norm_body line := by
      rw [norm_body, hc, norm_body]
    rw [normalize_eq_main _ h2, hbody, pyEndsNl_normalize, normalize_eq_main line h]

/-! ### Classification of normalized lines -/

theorem pyStrip_concat_ws (c : Char) (h : pyIsSpace c = true) (l : List Char) :
    pyStrip (l ++ [c]) = pyStrip l := by
  have h2 : pyLStrip (l ++ [c]) =
      if (List.dropWhile pyIsSpace l).isEmpty then List.dropWhile pyIsSpace [c]
      else List.dropWhile pyIsSpace l ++ [c] := List.dropWhile_append
  by_cases he : (List.dropWhile pyIsSpace l).isEmpty
  · have hl0 : pyLStrip l = [] := by
      simpa [pyLStrip, List.isEmpty_iff] using he
    have h3 : pyLStrip (l ++ [c]) = [] := by
      rw [h2, if_pos he]
      simp [List.dropWhile_cons, h]
    show pyRStrip (pyLStrip (l ++ [c])) = pyRStrip (pyLStrip l)
    rw [h3, hl0]
  · have h3 : pyLStrip (l ++ [c]) = pyLStrip l ++ [c] := by
      rw [h2, if_neg he]; rfl
    show pyRStrip (pyLStrip (l ++ [c])) = pyRStrip (pyLStrip l)
    rw [h3]
    exact pyRStrip_concat_true c h _

theorem is_table_row_iff (line : List Char) :
    is_table_row line = true ↔
      (pyStrip line).head? = some '|' ∧ (pyStrip line).getLast? = some '|' ∧
        2 ≤ (pyStrip line).count '|' ∧ bullet_match line = false := by
  simp [is_table_row, Bool.and_eq_true, decide_eq_true_eq, beq_iff_eq,
    Bool.not_eq_true', and_assoc]

theorem not_lt3_of_table_row (line : List Char) (h : is_table_row line = true) :
    ¬((line_parts line).length < 3) := by
  obtain ⟨-, -, hcount, -⟩ := (is_table_row_iff line).mp h
  rw [count_pyStrip] at hcount
  rw [line_parts, split_pipe_length, count_pyRStripNl]
  omega

theorem pyStrip_norm_body (line : List Char) :
    pyStrip (norm_body line) = norm_body line := by
  rw [norm_body]
  exact pyStrip_eq_self '|' '|' _ (by decide) (by decide)

theorem pyStrip_normalize (line : List Char) (h : ¬((line_parts line).length < 3)) :
    pyStrip (normalize_table_line line) = norm_body line := by
  rw [normalize_eq_main line h]
  cases he : pyEndsNl line with
  | true =>
      rw [if_pos rfl, pyStrip_concat_ws '\n' (by decide), pyStrip_norm_body]
  | false =>
      rw [if_neg (by simp), pyStrip_norm_body]

theorem normalize_head_pipe (line : List Char) (h : ¬((line_parts line).length < 3)) :
    ∃ rest, normalize_table_line line = '|' :: rest := by
  rw [normalize_eq_main line h, norm_body]
  cases pyEndsNl line
  · exact ⟨join_pipe (norm_cells line) ++ ['|'], by simp⟩
  · exact ⟨(join_pipe (norm_cells line) ++ ['|']) ++ ['\n'], by simp⟩

theorem bullet_match_pipe (rest : List Char) : bullet_match ('|' :: rest) = false := by
  have hd : List.dropWhile pyIsSpace ('|' :: rest) = '|' :: rest := by
    rw [List.dropWhile_cons]
    simp [pyIsSpace]
  simp only [bullet_match, hd]
  cases rest with
  | nil => rfl
  | cons d t =>
      have h1 : (decide (('|' : Char) = '-') || decide (('|' : Char) = '*') ||
          decide (('|' : Char) = '+')) = false := by decide
      simp [h1]

theorem is_fence_pipe (rest : List Char) : is_fence ('|' :: rest) = false := by
  have hd : List.dropWhile pyIsSpace ('|' :: rest) = '|' :: rest := by
    rw [List.dropWhile_cons]
    simp [pyIsSpace]
  simp only [is_fence, hd]
  cases rest with
  | nil => rfl
  | cons d t =>
      cases t with
      | nil => rfl
      | cons e u =>
          have h1 : decide (('|' : Char) = backtick) = false := by decide
          simp [h1]

theorem is_table_row_normalize (line : List Char) (h : is_table_row line = true) :
    is_table_row (normalize_table_line line) = true := by
  have h3 := not_lt3_of_table_row line h
  rw [is_table_row_iff, pyStrip_normalize line h3]
  refine ⟨?_, ?_, ?_, ?_⟩
  · rw [norm_body]
    simp
  · exact norm_body_getLast line
  · rw [norm_body, List.count_append]
    have h4 : List.count '|' ['|'] = 1 := by decide
    have h5 : 1 ≤ List.count '|' ('|' :: join_pipe (norm_cells line)) := by
      rw [List.count_cons]
      simp
    omega
  · obtain ⟨rest, hrest⟩ := normalize_head_pipe line h3
    rw [hrest]
    exact bullet_match_pipe rest

theorem is_fence_normalize (line : List Char) (h : is_table_row line = true) :
    is_fence (normalize_table_line line) = false := by
  obtain ⟨rest, hrest⟩ := normalize_head_pipe line (not_lt3_of_table_row line h)
  rw [hrest]
  exact is_fence_pipe rest

/-! ### Process-loop lemmas -/

theorem process_line_fst (f : Bool) (l : List Char) :
    (process_line f l).1 = fence_toggle f l := by
  rw [process_line, fence_toggle]
  split_ifs <;> rfl

theorem process_lines_cons (f : Bool) (l : List Char) (ls : List (List Char)) :
    process_lines f (l :: ls) =
      (process_line f l).2 :: process_lines (process_line f l).1 ls := rfl

theorem fence_state_before_zero (f : Bool) (ls : List (List Char)) :
    fence_state_before f ls 0 = f := rfl

theorem fence_state_before_succ_cons (f : Bool) (l : List Char)
    (ls : List (List Char)) (i : Nat) :
    fence_state_before f (l :: ls) (i + 1) =
      fence_state_before (fence_toggle f l) ls i := rfl

theorem process_lines_getElem (f : Bool) (ls : List (List Char)) (i : Nat) :
    (process_lines f ls)[i]? =
      (ls[i]?).map (fun l => (process_line (fence_state_before f ls i) l).2) := by
  induction ls generalizing f i with
  | nil => simp [process_lines]
  | cons l t ih =>
      cases i with
      | zero => simp [process_lines_cons, fence_state_before_zero]
      | succ n =>
          rw [process_lines_cons]
          simp only [List.getElem?_cons_succ]
          rw [ih (process_line f l).1 n, process_line_fst, fence_state_before_succ_cons]

theorem fence_state_before_succ (f : Bool) (ls : List (List Char)) (i : Nat)
    (l : List Char) (h : ls[i]? = some l) :
    fence_state_before f ls (i + 1) = fence_toggle (fence_state_before f ls i) l := by
  rw [fence_state_before, fence_state_before, List.take_succ, h]
  simp [List.foldl_append]

theorem process_line_idem (f : Bool) (l : List Char) :
    process_line f (process_line f l).2 = process_line f l := by
  by_cases h1 : is_fence l
  · have hout : (process_line f l).2 = l := by simp [process_line, h1]
    rw [hout]
  · cases f with
    | true =>
        have hout : (process_line true l).2 = l := by simp [process_line, h1]
        rw [hout]
    | false =>
        by_cases h2 : is_table_row l
        · have hout : (process_line false l).2 = normalize_table_line l := by
            simp [process_line, h1, h2]
          have hf2 := is_fence_normalize l h2
          have ht2 := is_table_row_normalize l h2
          rw [hout]
          have lhs : process_line false (normalize_table_line l) =
              (false, normalize_table_line (normalize_table_line l)) := by
            simp [process_line, hf2, ht2]
          have rhs : process_line false l = (false, normalize_table_line l) := by
            simp [process_line, h1, h2]
          rw [lhs, rhs, normalize_table_line_idem]
        · have hout : (process_line false l).2 = l := by simp [process_line, h1, h2]
          rw [hout]

theorem process_lines_idem (f : Bool) (ls : List (List Char)) :
    process_lines f (process_lines f ls) = process_lines f ls := by
  induction ls generalizing f with
  | nil => rfl
  | cons l t ih =>
      rw [process_lines_cons, process_lines_cons, process_line_idem f l, ih]

/-! ### The separator regex characterized -/

theorem dropLeadColon_colon (r : List Char) : dropLeadColon (':' :: r) = r := by
  simp [dropLeadColon]

theorem dropLeadColon_other (c : Char) (r : List Char) (h : ¬(c = ':')) :
    dropLeadColon (c :: r) = c :: r := by
  simp [dropLeadColon, h]

theorem sep_pattern_match_core (s : List Char) (k : Nat)
    (hcore : (dropLeadColon (dropLeadColon s).reverse).reverse =
      List.replicate (k + 1) '-') :
    sep_pattern_match s = true := by
  show (!((dropLeadColon (dropLeadColon s).reverse).reverse).isEmpty &&
    ((dropLeadColon (dropLeadColon s).reverse).reverse).all (fun c => c = '-')) = true
  rw [hcore]
  simp [List.replicate_succ, List.all_eq_true, List.mem_replicate]

theorem sep_match_iff (s : List Char) :
    sep_pattern_match s = true ↔
      ∃ (b1 b2 : Bool) (n : Nat), 0 < n ∧
        s = (if b1 then [':'] else []) ++ List.replicate n '-' ++
          (if b2 then [':'] else []) := by
  constructor
  · intro h
    have h1 : (!((dropLeadColon (dropLeadColon s).reverse).reverse).isEmpty &&
        ((dropLeadColon (dropLeadColon s).reverse).reverse).all
          (fun c => c = '-')) = true := h
    rw [Bool.and_eq_true] at h1
    obtain ⟨hne, hall⟩ := h1
    set t := dropLeadColon s with ht
    set core := (dropLeadColon t.reverse).reverse with hcoredef
    have hcorene : core ≠ [] := by
      intro h0
      rw [h0] at hne
      simp at hne
    have hallmem : ∀ c ∈ core, c = '-' := by
      intro c hc
      have := List.all_eq_true.mp hall c hc
      simpa using this
    have hrep : core = List.replicate core.length '-' :=
      List.eq_replicate_iff.mpr ⟨rfl, hallmem⟩
    have hpos : 0 < core.length := List.length_pos.mpr hcorene
    -- decompose s into optional colon and t
    obtain ⟨b1, hs1⟩ : ∃ b1 : Bool, s = (if b1 then [':'] else []) ++ t := by
      cases hs : s with
      | nil =>
          refine ⟨false, ?_⟩
          rw [ht, hs]
          rfl
      | cons c r =>
          by_cases hc : c = ':'
          · refine ⟨true, ?_⟩
            rw [ht, hs, hc, dropLeadColon_colon]
            rfl
          · refine ⟨false, ?_⟩
            rw [ht, hs, dropLeadColon_other c r hc]
            rfl
    -- decompose t into core and optional colon
    obtain ⟨b2, hs2⟩ : ∃ b2 : Bool, t = core ++ (if b2 then [':'] else []) := by
      cases hrev : t.reverse with
      | nil =>
          exfalso
          apply hcorene
          rw [hcoredef, hrev]
          rfl
      | cons d w =>
          by_cases hd : d = ':'
          · refine ⟨true, ?_⟩
            have h2 : core = w.reverse := by
              rw [hcoredef, hrev, hd, dropLeadColon_colon]
            have h3 : t = w.reverse ++ [d] := by
              have := congrArg List.reverse hrev
              simpa using this
            rw [h3, h2, hd]
            rfl
          · refine ⟨false, ?_⟩
            have h2 : core = t := by
              rw [hcoredef, hrev, dropLeadColon_other d w hd, ← hrev,
                List.reverse_reverse]
            rw [h2]
            simp
    refine ⟨b1, b2, core.length, hpos, ?_⟩
    rw [hs1, hs2, hrep]
    simp [List.append_assoc]
  · rintro ⟨b1, b2, n, hn, rfl⟩
    obtain ⟨k, rfl⟩ : ∃ k, n = k + 1 := ⟨n - 1, by omega⟩
    have hdash : ¬(('-' : Char) = ':') := by decide
    cases b1 with
    | false =>
        cases b2 with
        | false =>
            apply sep_pattern_match_core _ k
            have h1 : (if false then [':'] else []) ++ List.replicate (k + 1) '-' ++
                (if false then [':'] else []) = List.replicate (k + 1) '-' := by simp
            rw [h1]
            have h2 : dropLeadColon (List.replicate (k + 1) '-') =
                List.replicate (k + 1) '-' := by
              rw [List.replicate_succ, dropLeadColon_other _ _ hdash, ← List.replicate_succ]
            rw [h2, List.reverse_replicate]
            rw [List.replicate_succ, dropLeadColon_other _ _ hdash, ← List.replicate_succ,
              List.reverse_replicate]
        | true =>
            apply sep_pattern_match_core _ k
            have h1 : (if false then [':'] else []) ++ List.replicate (k + 1) '-' ++
                (if true then [':'] else []) = List.replicate (k + 1) '-' ++ [':'] := by
              simp
            rw [h1]
            have h2 : dropLeadColon (List.replicate (k + 1) '-' ++ [':']) =
                List.replicate (k + 1) '-' ++ [':'] := by
              rw [List.replicate_succ, List.cons_append, dropLeadColon_other _ _ hdash,
                ← List.cons_append, ← List.replicate_succ]
            rw [h2]
            have h3 : (List.replicate (k + 1) '-' ++ [':']).reverse =
                ':' :: List.replicate (k + 1) '-' := by
              simp [List.reverse_replicate]
            rw [h3, dropLeadColon_colon, List.reverse_replicate]
    | true =>
        cases b2 with
        | false =>
            apply sep_pattern_match_core _ k
            have h1 : (if true then [':'] else []) ++ List.replicate (k + 1) '-' ++
                (if false then [':'] else []) = ':' :: List.replicate (k + 1) '-' := by
              simp
            rw [h1, dropLeadColon_colon, List.reverse_replicate]
            rw [List.replicate_succ, dropLeadColon_other _ _ hdash, ← List.replicate_succ,
              List.reverse_replicate]
        | true =>
            apply sep_pattern_match_core _ k
            have h1 : (if true then [':'] else []) ++ List.replicate (k + 1) '-' ++
                (if true then [':'] else []) =
                ':' :: (List.replicate (k + 1) '-' ++ [':']) := by simp
            rw [h1, dropLeadColon_colon]
            have h3 : (List.replicate (k + 1) '-' ++ [':']).reverse =
                ':' :: List.replicate (k + 1) '-' := by
              simp [List.reverse_replicate]
            rw [h3, dropLeadColon_colon, List.reverse_replicate]

/-! ### Selector lemmas -/

theorem mem_insert_sorted (x y : String) (l : List String) :
    x ∈ insert_sorted y l ↔ x = y ∨ x ∈ l := by
  induction l with
  | nil => simp [insert_sorted]
  | cons a t ih =>
      rw [insert_sorted]
      by_cases h : str_le y a
      · simp [h]
      · simp only [h, Bool.false_eq_true, if_false, List.mem_cons, ih]
        tauto

theorem mem_sort_strings (x : String) (l : List String) :
    x ∈ sort_strings l ↔ x ∈ l := by
  induction l with
  | nil => simp [sort_strings]
  | cons a t ih =>
      show x ∈ insert_sorted a (sort_strings t) ↔ _
      rw [mem_insert_sorted]
      simp [ih]

/-! ### Driver lemmas -/

theorem run_files_code_zero (ts : List (String × FileOutcome)) :
    (run_files ts).1 = 0 ↔ ∀ x ∈ ts, x.2 ≠ FileOutcome.err := by
  induction ts with
  | nil => simp [run_files]
  | cons a t ih =>
      obtain ⟨f, o⟩ := a
      cases o with
      | ok c => simp [run_files, ih]
      | err =>
          simp only [run_files]
          constructor
          · intro h; cases h
          · intro h
            exact absurd rfl (h (f, FileOutcome.err) (List.mem_cons_self _ _))

theorem run_files_code_two (ts : List (String × FileOutcome)) :
    (run_files ts).1 = 2 ↔ ∃ x ∈ ts, x.2 = FileOutcome.err := by
  induction ts with
  | nil => simp [run_files]
  | cons a t ih =>
      obtain ⟨f, o⟩ := a
      cases o with
      | ok c => simp [run_files, ih]
      | err =>
          simp only [run_files]
          constructor
          · intro _
            exact ⟨(f, FileOutcome.err), List.mem_cons_self _ _, rfl⟩
          · intro _; trivial

theorem run_files_code_cases (ts : List (String × FileOutcome)) :
    (run_files ts).1 = 0 ∨ (run_files ts).1 = 2 := by
  induction ts with
  | nil => left; rfl
  | cons a t ih =>
      obtain ⟨f, o⟩ := a
      cases o with
      | ok c => simpa [run_files] using ih
      | err => right; rfl

theorem run_files_stops_at_err :
    ∀ (pre : List (String × FileOutcome)) (f : String)
      (suf : List (String × FileOutcome)),
      (∀ x ∈ pre, x.2 ≠ FileOutcome.err) →
      run_files (pre ++ (f, FileOutcome.err) :: suf) = (2, pre.map Prod.fst ++ [f]) := by
  intro pre
  induction pre with
  | nil => intro f suf _; rfl
  | cons a t ih =>
      intro f suf h
      obtain ⟨g, o⟩ := a
      cases o with
      | ok c =>
          have ht := ih f suf (fun x hx => h x (List.mem_cons_of_mem _ hx))
          show ((run_files (t ++ (f, FileOutcome.err) :: suf)).1,
              g :: (run_files (t ++ (f, FileOutcome.err) :: suf)).2) = _
          rw [ht]
          rfl
      | err => exact absurd rfl (h (g, FileOutcome.err) (List.mem_cons_self _ _))

/-! ### Sanity checks against the spec's scenarios -/

example : normalize_table_line "|a|b|".toList = "| a | b |".toList := by decide
example : normalize_table_line "|---|:--:|".toList = "| --- | :---: |".toList := by decide
example : normalize_table_line "| x | |".toList = "| x | |".toList := by decide
example : is_table_row "- | not a table |".toList = false := by decide
example : is_table_row "|a|b|".toList = true := by decide
example : is_fence "  ```py".toList = true := by decide
example : process_lines false ["```".toList, "|a|b|".toList, "```".toList] =
    ["```".toList, "|a|b|".toList, "```".toList] := by decide
example : py_splitlines "|a|\r|b|\n".toList = ["|a|\r".toList, "|b|\n".toList] := by
  decide

/-! ### Claim C1 -/

/-- Claim C1, counterexample: a directory argument whose subtree holds a
markdown file under `node_modules` yields that file in the selector's
output — `gather_files` only filters `node_modules` in the no-argument
branch (source line 138), not in the argument branch (lines 127-134). -/
theorem gather_files_args_node_modules_counterexample :
    "docs/node_modules/b.md" ∈
        gather_files ⟨["docs/a.md", "docs/node_modules/b.md"]⟩ ["docs"] ∧
      py_in "node_modules" "docs/node_modules/b.md" = true := by
  constructor <;> decide

/-- Claim C1 (amended): only the no-argument invocation of `gather_files`
excludes paths containing `node_modules`; every path it returns is free of
that substring (and hence of that directory segment). -/
theorem gather_files_default_excludes_node_modules (fs : FS) (p : String)
    (hp : p ∈ gather_files fs []) : py_in "node_modules" p = false := by
  rw [gather_files] at hp
  simp only [List.isEmpty_nil, Bool.not_true, Bool.false_eq_true, if_false] at hp
  rw [mem_sort_strings] at hp
  obtain ⟨-, hcond⟩ := List.mem_filter.mp hp
  simpa using hcond

/-- Witness for the amended claim C1 at a concrete file system. -/
theorem gather_files_default_excludes_witness :
    "a.md" ∈ gather_files ⟨["a.md", "node_modules/b.md"]⟩ [] ∧
      py_in "node_modules" "a.md" = false :=
  ⟨by decide, gather_files_default_excludes_node_modules ⟨["a.md", "node_modules/b.md"]⟩
    "a.md" (by decide)⟩

/-! ### Claim C10 -/

/-- Claim C10: with a non-empty argument list, membership in the selector's
result is exactly: the path is an argument naming an existing file (taken
as is, regardless of extension), or it is reached by the recursive `*.md`
glob of an argument that is not an existing file. -/
theorem gather_files_args_characterization (fs : FS) (args : List String)
    (p : String) (hargs : args ≠ []) :
    p ∈ gather_files fs args ↔
      ∃ a ∈ args, (fs.is_file a = true ∧ p = a) ∨
        (fs.is_file a = false ∧ p ∈ rglob_md fs a) := by
  rw [gather_files]
  have hne : (!args.isEmpty) = true := by
    cases args with
    | nil => exact absurd rfl hargs
    | cons _ _ => rfl
  rw [if_pos hne, mem_sort_strings, List.mem_dedup, List.mem_flatMap]
  constructor
  · rintro ⟨a, ha, hp⟩
    refine ⟨a, ha, ?_⟩
    cases hf : fs.is_file a with
    | true =>
        left
        rw [hf] at hp
        simp only [if_true] at hp
        exact ⟨rfl, List.mem_singleton.mp hp⟩
    | false =>
        right
        rw [hf] at hp
        simp only [Bool.false_eq_true, if_false] at hp
        exact ⟨rfl, hp⟩
  · rintro ⟨a, ha, h | h⟩
    · obtain ⟨hf, hpa⟩ := h
      refine ⟨a, ha, ?_⟩
      rw [hf]
      simp [hpa]
    · obtain ⟨hf, hmem⟩ := h
      refine ⟨a, ha, ?_⟩
      rw [hf]
      simpa using hmem

/-- Witness for claim C10: an explicitly named existing non-`.md` file is
selected. -/
theorem gather_files_args_witness :
    "notes.txt" ∈ gather_files ⟨["notes.txt", "sub/c.md"]⟩ ["notes.txt"] :=
  (gather_files_args_characterization ⟨["notes.txt", "sub/c.md"]⟩ ["notes.txt"]
      "notes.txt" (by simp)).mpr
    ⟨"notes.txt", by simp, Or.inl ⟨by decide, rfl⟩⟩

/-! ### Claim C2 -/

/-- Claim C2, counterexample: full-text idempotence fails.  The text
`"|a|\r|b|\n"` splits into the lines `"|a|\r"` and `"|b|\n"`; rewriting the
first drops its `\r` terminator, so the two output lines merge and the
second run parses one four-pipe row, inserting a new blank cell. -/
theorem process_text_not_idempotent :
    process_text (process_text "|a|\r|b|\n".toList) ≠
      process_text "|a|\r|b|\n".toList := by
  decide

/-- Claim C2 (amended): the per-file normalization is idempotent at the
line level — running the `process_file` loop on its own output (from any
fence state) changes nothing, and `normalize_table_line` is a fixed point
on every line classified as a table row.  Full-text idempotence does not
hold: rewriting a table row whose line terminator is not `\n` (such as
`\r`, per the counterexample, or `\x0b`) drops the terminator, so the
rejoined text parses into different lines on the next run. -/
theorem process_idempotent :
    (∀ (f : Bool) (ls : List (List Char)),
        process_lines f (process_lines f ls) = process_lines f ls) ∧
      ∀ l : List Char, is_table_row l = true →
        normalize_table_line (normalize_table_line l) = normalize_table_line l :=
  ⟨process_lines_idem, fun l _ => normalize_table_line_idem l⟩

/-- Witness for the amended claim C2 at a concrete table row. -/
theorem process_idempotent_witness :
    normalize_table_line (normalize_table_line "|a|b|".toList) =
      normalize_table_line "|a|b|".toList :=
  process_idempotent.2 "|a|b|".toList (by decide)

/-! ### Claim C3 -/

/-- Claim C3: fence opacity.  Any line processed while the inside-fence
state is true is emitted byte-for-byte unchanged, and the inside-fence
boolean is toggled exactly by the lines whose stripped form begins with a
triple backtick (`is_fence`). -/
theorem fence_opacity :
    (∀ (f : Bool) (ls : List (List Char)) (i : Nat),
        fence_state_before f ls i = true → (process_lines f ls)[i]? = ls[i]?) ∧
      ∀ (f : Bool) (ls : List (List Char)) (i : Nat) (l : List Char),
        ls[i]? = some l →
          fence_state_before f ls (i + 1) =
            (if is_fence l then !(fence_state_before f ls i)
             else fence_state_before f ls i) := by
  constructor
  · intro f ls i hstate
    rw [process_lines_getElem, hstate]
    cases h : ls[i]? with
    | none => rfl
    | some l =>
        have hpt : (process_line true l).2 = l := by
          rw [process_line]
          split_ifs with hf hin ht
          · rfl
          · rfl
          · exact absurd rfl hin
          · exact absurd rfl hin
        simp [hpt]
  · intro f ls i l h
    rw [fence_state_before_succ f ls i l h, fence_toggle]

/-- Witness for claim C3: a table-shaped line between two fence markers is
passed through unchanged, and the closing fence toggles the state. -/
theorem fence_opacity_witness :
    (process_lines false ["```".toList, "|a|b|".toList, "```".toList])[1]? =
        ["```".toList, "|a|b|".toList, "```".toList][1]? ∧
      fence_state_before false ["```".toList, "|a|b|".toList, "```".toList] (1 + 1) =
        (if is_fence "|a|b|".toList then
            !(fence_state_before false ["```".toList, "|a|b|".toList, "```".toList] 1)
          else fence_state_before false ["```".toList, "|a|b|".toList, "```".toList] 1) :=
  ⟨fence_opacity.1 false ["```".toList, "|a|b|".toList, "```".toList] 1 (by decide),
    fence_opacity.2 false ["```".toList, "|a|b|".toList, "```".toList] 1
      "|a|b|".toList (by decide)⟩

/-! ### Claim C4 -/

/-- Claim C4: a row is classified as a separator row iff every interior
cell whose trimmed form is non-blank matches the pattern
optional-leading-colon, one-or-more dashes, optional-trailing-colon; and a
row whose interior cells are all blank receives no separator treatment —
each of its cells is rewritten to the single-space placeholder. -/
theorem separator_classification (inner : List (List Char)) :
    (is_separator_row inner = true ↔
        ∀ p ∈ inner, pyStrip p ≠ [] →
          ∃ (b1 b2 : Bool) (n : Nat), 0 < n ∧
            pyStrip p = (if b1 then [':'] else []) ++ List.replicate n '-' ++
              (if b2 then [':'] else [])) ∧
      ((∀ p ∈ inner, pyStrip p = []) →
        inner.map (norm_cell (is_separator_row inner)) = inner.map (fun _ => [' '])) := by
  constructor
  · rw [is_separator_row_iff]
    constructor
    · intro h p hp hne
      refine (sep_match_iff _).mp (h p hp ?_)
      simpa [List.isEmpty_iff] using hne
    · intro h p hp hne
      refine (sep_match_iff _).mpr (h p hp ?_)
      simpa [List.isEmpty_iff] using hne
  · intro hall
    apply List.map_congr_left
    intro p hp
    exact norm_cell_blank _ p (by simp [List.isEmpty_iff, hall p hp])

/-- Witness for claim C4 at the concrete separator cell `:--:`. -/
theorem separator_classification_witness :
    ∃ (b1 b2 : Bool) (n : Nat), 0 < n ∧
      pyStrip ":--:".toList = (if b1 then [':'] else []) ++ List.replicate n '-' ++
        (if b2 then [':'] else []) :=
  (separator_classification [":--:".toList]).1.mp (by decide) ":--:".toList
    (by decide) (by decide)

/-! ### Claim C5 -/

/-- Claim C5: on a separator row, every non-blank cell is rewritten to
three dashes with the original leading/trailing colons kept and one space
on each side; the whole line is rebuilt from exactly these cells. -/
theorem separator_rewrite (line : List Char)
    (h3 : ¬((line_parts line).length < 3))
    (hsep : is_separator_row (inner_cells line) = true) :
    normalize_table_line line = spec_sep_row line := by
  rw [normalize_eq_main line h3, spec_sep_row]
  have hc : norm_cells line = (inner_cells line).map
      (fun p => if pyStrip p = [] then [' '] else spec_sep_cell (pyStrip p)) := by
    rw [norm_cells, hsep]
    apply List.map_congr_left
    intro p _
    by_cases hb : pyStrip p = []
    · rw [if_pos hb]
      exact norm_cell_blank true p (by simp [List.isEmpty_iff, hb])
    · rw [if_neg hb]
      rw [norm_cell_true_eq_sep_cell p (by simp [List.isEmpty_iff, hb])]
      rw [sep_cell, spec_sep_cell]
      by_cases h1 : (pyStrip p).head? = some ':' <;>
        by_cases h2 : (pyStrip p).getLast? = some ':' <;>
          simp [h1, h2]
  rw [norm_body, hc]
  cases he : pyEndsNl line <;> simp [List.append_assoc]

/-- Witness for claim C5: the spec's example row. -/
theorem separator_rewrite_witness :
    normalize_table_line "|---|:--:|".toList = "| --- | :---: |".toList := by
  have h := separator_rewrite "|---|:--:|".toList (by decide) (by decide)
  rw [h]
  decide

/-! ### Claim C6 -/

/-- Claim C6: cell-count preservation.  For every line classified as a
table row, the rewritten line has exactly as many interior cells (segments
strictly between the first and the last pipe) as the original. -/
theorem cell_count_preserved (line : List Char) (h : is_table_row line = true) :
    (inner_cells (normalize_table_line line)).length = (inner_cells line).length := by
  have h3 := not_lt3_of_table_row line h
  rw [inner_cells_normalize line h3, norm_cells, List.length_map]

/-- Witness for claim C6: a row with a blank cell keeps its three cells. -/
theorem cell_count_preserved_witness :
    (inner_cells (normalize_table_line "|a||b|".toList)).length =
      (inner_cells "|a||b|".toList).length :=
  cell_count_preserved "|a||b|".toList (by decide)

/-! ### Claim C7 -/

/-- Claim C7, counterexample: a rewritten `\r\n`-terminated table row ends
with a bare `\n` — `rstrip("\n")` leaves the `\r` in the last split part,
which is discarded, and only `\n` is reattached (source lines 45 and
81-82).  So the trailing line-terminator characters are not preserved
exactly, though the presence of a final newline is. -/
theorem newline_preservation_counterexample :
    normalize_table_line "|a|b|\r\n".toList ≠ "|a|b|\r\n".toList ∧
      trailing_terminators (normalize_table_line "|a|b|\r\n".toList) ≠
        trailing_terminators "|a|b|\r\n".toList := by
  constructor <;> decide

/-- Claim C7 (amended): the output of `normalize_table_line` ends with a
newline character iff its input does. -/
theorem newline_preserved (line : List Char) :
    pyEndsNl (normalize_table_line line) = pyEndsNl line :=
  pyEndsNl_normalize line

/-! ### Claim C8 -/

/-- Claim C8: exit-status contract of `main`.  Status `0` iff the target
list is non-empty and no file errors; status `1` iff no targets; status
`2` iff some file errors, in which case processing stops at the first
erroring file — exactly the non-erroring prefix and that file are
processed. -/
theorem main_exit_codes :
    (∀ ts : List (String × FileOutcome),
        (main_model ts).1 = 0 ↔ ts ≠ [] ∧ ∀ x ∈ ts, x.2 ≠ FileOutcome.err) ∧
      (∀ ts : List (String × FileOutcome), (main_model ts).1 = 1 ↔ ts = []) ∧
      (∀ ts : List (String × FileOutcome),
        (main_model ts).1 = 2 ↔ ∃ x ∈ ts, x.2 = FileOutcome.err) ∧
      ∀ (pre : List (String × FileOutcome)) (f : String)
        (suf : List (String × FileOutcome)),
        (∀ x ∈ pre, x.2 ≠ FileOutcome.err) →
          main_model (pre ++ (f, FileOutcome.err) :: suf) =
            (2, pre.map Prod.fst ++ [f]) := by
  refine ⟨?_, ?_, ?_, ?_⟩
  · intro ts
    rw [main_model]
    by_cases h : ts.isEmpty
    · have h0 : ts = [] := by simpa [List.isEmpty_iff] using h
      rw [if_pos h]
      simp [h0]
    · have hne : ts ≠ [] := by simpa [List.isEmpty_iff] using h
      rw [if_neg h, run_files_code_zero]
      simp [hne]
  · intro ts
    rw [main_model]
    by_cases h : ts.isEmpty
    · have h0 : ts = [] := by simpa [List.isEmpty_iff] using h
      rw [if_pos h]
      simp [h0]
    · have hne : ts ≠ [] := by simpa [List.isEmpty_iff] using h
      rw [if_neg h]
      rcases run_files_code_cases ts with h0 | h2
      · rw [h0]
        simp [hne]
      · rw [h2]
        simp [hne]
  · intro ts
    rw [main_model]
    by_cases h : ts.isEmpty
    · have h0 : ts = [] := by simpa [List.isEmpty_iff] using h
      rw [if_pos h]
      simp [h0]
    · rw [if_neg h, run_files_code_two]
  · intro pre f suf hpre
    rw [main_model, if_neg (by simp)]
    exact run_files_stops_at_err pre f suf hpre

/-- Witness for claim C8: a run with an erroring second file exits with
status `2` having processed exactly the first two files. -/
theorem main_exit_codes_witness :
    main_model [("a.md", FileOutcome.ok false), ("b.md", FileOutcome.err),
        ("c.md", FileOutcome.ok true)] = (2, ["a.md", "b.md"]) := by
  have h := main_exit_codes.2.2.2 [("a.md", FileOutcome.ok false)] "b.md"
    [("c.md", FileOutcome.ok true)] (by decide)
  simpa using h

/-! ### Claim C9 -/

/-- Claim C9: `normalize_table_line` is total — it is a structurally
recursive Lean function, mirroring that every Python operation it uses
(`rstrip`, `split`, `strip`, regex matching, joining) is total on strings,
so the per-line `except` of `process_file` is unreachable.  Consequently
every line classified as a table row outside a fence is emitted as its
normalized form, never as the verbatim fallback. -/
theorem table_row_always_normalized (f : Bool) (ls : List (List Char)) (i : Nat)
    (l : List Char) (hl : ls[i]? = some l)
    (hstate : fence_state_before f ls i = false)
    (hfence : is_fence l = false) (htable : is_table_row l = true) :
    (process_lines f ls)[i]? = some (normalize_table_line l) := by
  rw [process_lines_getElem, hstate, hl]
  have hp : (process_line false l).2 = normalize_table_line l := by
    rw [process_line, if_neg (by simp [hfence]), if_neg (by simp),
      if_pos (by simp [htable])]
  simp [hp]

/-- Witness for claim C9 at a concrete one-line file. -/
theorem table_row_always_normalized_witness :
    (process_lines false ["|x|y|".toList])[0]? =
      some (normalize_table_line "|x|y|".toList) :=
  table_row_always_normalized false ["|x|y|".toList] 0 "|x|y|".toList
    (by decide) (by decide) (by decide) (by decide)
